import Mathlib

/-!
Shallow embedding of `solve.py`, an RSA key-recovery engine: continued-fraction
Wiener attack, Pollard's rho (Brent variant), Pollard's p-1, Fermat's method,
a factorization orchestrator, and the top-level key-recovery service.

Conventions of the embedding:
* Python arbitrary-precision integers are `Nat` where the source only ever
  holds nonnegative values, and `Int` where the source can go negative
  (Wiener's `e*d - 1`, `phi`, `s`, `disc`; `egcd`; `a - 1` in Pollard p-1).
  For a positive divisor, Python `//` and `%` agree with `Int`'s `/` and `%`
  (Euclidean division), and with `Nat` division on nonnegative values.
* Loops whose bound is data-dependent but provably sufficient are embedded
  with an explicit fuel argument chosen large enough that the fuel branch is
  unreachable (`cfAux`, `egcdAux`, `isqrtAux`, `powModAux`, `ltbAux`).
* Pollard's rho draws random parameters and runs two `while` loops with no
  static bound.  The embedding threads the drawn `(y, c)` pairs as an explicit
  list (the source draws at most 10) and gives the two unbounded loops a fuel
  parameter; exhausted fuel yields `none`, so every `some` result of the model
  is a result the source can produce.
* `math.isqrt` (exact floor square root) is embedded as `isqrt`, proved below
  to satisfy the floor-square-root characterization.
* Python's three-argument `pow(a, e, n)` is embedded as `powMod`, proved equal
  to `a ^ e % n`.
* `Crypto.Util.number.long_to_bytes` is an external dependency, not code of
  this repository.  Modelled from the spec: "render a nonnegative integer as
  its minimal big-endian byte sequence, with an empty sequence for zero and no
  superfluous leading zero byte".
-/

set_option maxRecDepth 4000

/-- Fuel-driven linear search for the floor square root: starting from `r`
with `r*r ≤ n`, increment while `(r+1)^2 ≤ n`. -/
def isqrtAux (n : Nat) : Nat → Nat → Nat
  | 0, r => r
  | fuel + 1, r => if (r + 1) * (r + 1) ≤ n then isqrtAux n fuel (r + 1) else r

/-- Embedding of Python `math.isqrt`: the exact floor square root. -/
def isqrt (n : Nat) : Nat := isqrtAux n n 0

/-- Fuel-driven square-and-multiply; fuel bounds the recursion depth on the
exponent, which halves every step. -/
def powModAux (n : Nat) : Nat → Nat → Nat → Nat
  | 0, _, _ => 1 % n
  | fuel + 1, a, e =>
    if e = 0 then 1 % n
    else
      let h := powModAux n fuel (a * a % n) (e / 2)
      if e % 2 = 1 then h * a % n else h

/-- Embedding of Python's three-argument `pow(a, e, n)`; proved below to equal
`a ^ e % n`. -/
def powMod (n a e : Nat) : Nat := powModAux n e a e

/-- Fuel-driven big-endian base-256 digit expansion. -/
def ltbAux : Nat → Nat → List Nat
  | 0, _ => []
  | fuel + 1, m => if m = 0 then [] else ltbAux fuel (m / 256) ++ [m % 256]

/-- Modelled from the spec: `long_to_bytes` of the external `Crypto.Util.number`
module renders a nonnegative integer as its minimal big-endian byte sequence,
with an empty sequence for zero. -/
def long_to_bytes (m : Nat) : List Nat := ltbAux m m

/-- Fuel-driven extended Euclid: `egcdAux fuel a b` mirrors
`egcd(a, b) = (g, x1, y1) of egcd(b, a % b); (g, y1, x1 - (a//b)*y1)`.
The second argument strictly decreases, so fuel `b` is always sufficient and
the fuel-0 branch coincides with the `b = 0` base case. -/
def egcdAux : Nat → Int → Nat → Int × Int × Int
  | 0, a, _ => (a, 1, 0)
  | fuel + 1, a, b =>
    if b = 0 then (a, 1, 0)
    else
      let r := (a % (b : Int)).toNat
      let t := egcdAux fuel (b : Int) r
      (t.1, t.2.2, t.2.1 - (a / (b : Int)) * t.2.2)

/-- Embedding of `egcd(a, b)` for nonnegative second argument (the only shape
the source ever passes: `egcd(a, m)` with `m = (p-1)(q-1) ≥ 0`). -/
def egcd (a : Int) (b : Nat) : Int × Int × Int := egcdAux b a b

/-- Embedding of `invmod(a, m)`: `None` unless the extended Euclid returns
gcd 1, else the Bezout coefficient reduced mod `m`. -/
def invmod (a : Int) (m : Nat) : Option Int :=
  let t := egcd a m
  if t.1 ≠ 1 then none else some (t.2.1 % (m : Int))

/-- Embedding of `is_perfect_square(n)`: `False` for negative input, else
compare `isqrt(n)^2` with `n`. -/
def is_perfect_square (n : Int) : Bool :=
  if n < 0 then false
  else
    let r := isqrt n.toNat
    r * r == n.toNat

/-- Fuel-driven continued-fraction coefficients: Euclidean steps
`a = num / den`, `(num, den) := (den, num % den)` until the denominator is 0.
The denominator strictly decreases, so fuel `den` is sufficient. -/
def cfAux : Nat → Nat → Nat → List Nat
  | 0, _, _ => []
  | fuel + 1, num, den =>
    if den = 0 then [] else num / den :: cfAux fuel den (num % den)

/-- Embedding of `cont_frac(num, den)` from `wiener_attack`. -/
def cont_frac (num den : Nat) : List Nat := cfAux den num den

/-- Tail of the convergent recurrence `n2 = a*n1 + n0`, `d2 = a*d1 + d0`. -/
def convergentsAux : Nat → Nat → Nat → Nat → List Nat → List (Nat × Nat)
  | _, _, _, _, [] => []
  | n0, d0, n1, d1, a :: rest =>
    (a * n1 + n0, a * d1 + d0) :: convergentsAux n1 d1 (a * n1 + n0) (a * d1 + d0) rest

/-- Embedding of `convergents(cf)`: seeds `(cf[0], 1)` and iterates the
second-order recurrence.  The source is only ever invoked with a nonempty
coefficient list (the modulus is positive); the empty case is mapped to `[]`. -/
def convergents : List Nat → List (Nat × Nat)
  | [] => []
  | a0 :: rest => (a0, 1) :: convergentsAux 1 0 a0 1 rest

/-- Body of the Wiener loop for one convergent `(k, d)`: `none` means the
source's `continue`, `some d` means `return d`. -/
def wienerCheck (e n : Nat) (kd : Nat × Nat) : Option Nat :=
  if kd.1 = 0 then none
  else if ((e : Int) * kd.2 - 1) % (kd.1 : Int) ≠ 0 then none
  else
    let phi := ((e : Int) * kd.2 - 1) / (kd.1 : Int)
    let s := (n : Int) - phi + 1
    let disc := s * s - 4 * (n : Int)
    if 0 ≤ disc ∧ is_perfect_square disc then some kd.2 else none

/-- Embedding of `wiener_attack(e, n)`. -/
def wiener_attack (e n : Nat) : Option Nat :=
  List.findSome? (wienerCheck e n) (convergents (cont_frac e n))

/-- The pseudo-random map `y ↦ (y*y + c) % n` of Pollard's rho. -/
def rhoF (n c y : Nat) : Nat := (y * y + c) % n

/-- One batch of Brent's variant: advance `y` `lim` times, multiplying
`|x - y|` into the running product `q` mod `n`. -/
def batchAdvance (n c x : Nat) : Nat → Nat → Nat → Nat × Nat
  | 0, y, q => (y, q)
  | l + 1, y, q =>
    let y2 := rhoF n c y
    batchAdvance n c x l y2 (q * ((x : Int) - (y2 : Int)).natAbs % n)

/-- The inner `while k < r and g == 1` loop of Brent's variant.  Each pass
saves `ys := y`, advances a batch of size `min 4096 (r - k)`, and takes a
batched gcd.  Returns `(y, q, g, ys)`.  Fuel `r` is sufficient since `k`
grows by at least 1 per pass; the fuel-0 branch coincides with the `k ≥ r`
exit (both leave `g = 1`). -/
def innerLoopAux (n c x : Nat) : Nat → Nat → Nat → Nat → Nat → Nat → Nat × Nat × Nat × Nat
  | 0, _, _, y, q, ys => (y, q, 1, ys)
  | fuel + 1, k, r, y, q, ys =>
    if k < r then
      let lim := min 4096 (r - k)
      let yq := batchAdvance n c x lim y q
      let g := Nat.gcd yq.2 n
      if g = 1 then innerLoopAux n c x fuel (k + lim) r yq.1 yq.2 y
      else (yq.1, yq.2, g, y)
    else (y, q, 1, ys)

/-- The outer `while g == 1` loop of Brent's variant: save `x := y`, advance
`y` by `r` steps, run the inner loop, double `r`.  The source has no static
bound on this loop, so the embedding carries fuel; `none` models exhausted
fuel.  On exit returns `(g, x, ys)`. -/
def brentLoop (n c : Nat) : Nat → Nat → Nat → Nat → Nat → Nat → Nat → Option (Nat × Nat × Nat)
  | 0, _, _, _, _, _, _ => none
  | fuel + 1, y, x, ys, r, q, g =>
    if g = 1 then
      let x2 := y
      let y2 := Nat.iterate (rhoF n c) r y
      let st := innerLoopAux n c x2 r 0 r y2 q ys
      brentLoop n c fuel st.1 x2 st.2.2.2 (r * 2) st.2.1 st.2.2.1
    else some (g, x, ys)

/-- The `while True` fallback of the source ("fallback to GCD steps"), entered
when the batched gcd collapsed to `n`; fuel models the unbounded loop. -/
def fallbackLoop (n c x : Nat) : Nat → Nat → Option Nat
  | 0, _ => none
  | fuel + 1, ys =>
    let ys2 := rhoF n c ys
    let g := Nat.gcd ((x : Int) - (ys2 : Int)).natAbs n
    if 1 < g then some g else fallbackLoop n c x fuel ys2

/-- One attempt of Pollard's rho with drawn parameters `(y0, c)`: run Brent's
loop, fall back to step-by-step gcd if it collapsed to `n`, and accept a
factor strictly between 1 and `n`.  `none` is a failed (or fuel-exhausted)
attempt. -/
def rhoAttempt (n y0 c fuel : Nat) : Option Nat :=
  match brentLoop n c fuel y0 y0 y0 1 1 1 with
  | none => none
  | some st =>
    if st.1 = n then
      match fallbackLoop n c st.2.1 fuel st.2.2 with
      | none => none
      | some g2 => if 1 < g2 ∧ g2 < n then some g2 else none
    else if 1 < st.1 ∧ st.1 < n then some st.1 else none

/-- Embedding of `pollards_rho(n)`.  `atts` is the sequence of random
`(y, c)` draws of the source's `for _ in range(10)` retry loop; `fuel` bounds
the two source loops that have no static bound. -/
def pollards_rho (n : Nat) (atts : List (Nat × Nat)) (fuel : Nat) : Option Nat :=
  if n % 2 = 0 then some 2
  else List.findSome? (fun yc => rhoAttempt n yc.1 yc.2 fuel) atts

/-- Embedding of `pollards_p_minus_1(n, B)`: `a := 2`, then `a := a^j mod n`
for `j = 2, …, B` (`List.range' 2 (B-1)` is Python's `range(2, B+1)`), accept
`gcd(a - 1, n)` iff strictly between 1 and `n`.  `a - 1` is computed in `Int`
exactly as Python does (`a` may be 0, making `a - 1` negative). -/
def pollards_p_minus_1 (n : Nat) (B : Nat) : Option Nat :=
  let a := (List.range' 2 (B - 1)).foldl (fun a j => powMod n a j) 2
  let d := Int.gcd ((a : Int) - 1) (n : Int)
  if 1 < d ∧ d < n then some d else none

/-- The starting point of Fermat's method: `a = isqrt(n)`, incremented once
when `a*a < n` (the ceiling of the square root). -/
def fermatA0 (n : Nat) : Nat :=
  if isqrt n * isqrt n < n then isqrt n + 1 else isqrt n

/-- The bounded trial loop of `fermat_factor`: for each step, `b2 = a*a - n`;
if `b2` is a perfect square with root `b` and `(a-b)*(a+b) = n` with
`1 < a-b < n`, return `a - b`, else increment `a`. -/
def fermatLoop (n : Nat) : Nat → Nat → Option Nat
  | _, 0 => none
  | a, fuel + 1 =>
    let b2 := a * a - n
    if is_perfect_square (b2 : Int) then
      let b := isqrt b2
      if (a - b) * (a + b) = n ∧ 1 < a - b ∧ a - b < n then some (a - b)
      else fermatLoop n (a + 1) fuel
    else fermatLoop n (a + 1) fuel

/-- Embedding of `fermat_factor(n, max_steps)`: factor 2 immediately for even
`n`, else run the bounded loop from the ceiling square root. -/
def fermat_factor (n : Nat) (max_steps : Nat) : Option Nat :=
  if n % 2 = 0 then some 2 else fermatLoop n (fermatA0 n) max_steps

/-- The staged early-return chain of `try_factor`, abstracted over the three
stage results (p-1 over the bound list, rho, Fermat): return the first
successful factor paired with its cofactor `n / f`. -/
def tfCombine (n : Nat) (o1 o2 o3 : Option Nat) : Option (Nat × Nat) :=
  match o1 with
  | some f => some (f, n / f)
  | none =>
    match o2 with
    | some f => some (f, n / f)
    | none =>
      match o3 with
      | some f => some (f, n / f)
      | none => none

/-- Embedding of `try_factor(n)`: Pollard p-1 over the fixed ascending bound
list, then Pollard rho, then Fermat with cap 1000000; the first success is
paired with its cofactor `n / f`. -/
def try_factor (n : Nat) (atts : List (Nat × Nat)) (fuel : Nat) : Option (Nat × Nat) :=
  tfCombine n
    (List.findSome? (fun B => pollards_p_minus_1 n B) [100000, 300000, 700000, 1200000])
    (pollards_rho n atts fuel) (fermat_factor n 1000000)

/-- The branch structure of `recover_and_decrypt`, abstracted over the Wiener
result and the orchestrator result: decrypt with the Wiener exponent when it
exists; otherwise compute the totient of the recovered factors and decrypt
with the modular inverse; both failure returns of the source are `None`. -/
def recoverCombine (e n c : Nat) (wres : Option Nat) (fres : Option (Nat × Nat)) :
    Option (List Nat) :=
  match wres with
  | some d => some (long_to_bytes (powMod n c d))
  | none =>
    match fres with
    | none => none
    | some pq =>
      let phi := (pq.1 - 1) * (pq.2 - 1)
      match invmod (e : Int) phi with
      | none => none
      | some d => some (long_to_bytes (powMod n c d.toNat))

/-- Embedding of `recover_and_decrypt(e, n, c)`: Wiener first (the source's
`try`/`except` around `long_to_bytes` never fires, since `long_to_bytes` is
total on the nonnegative `pow` result), then factorization, totient, modular
inverse, decryption. -/
def recover_and_decrypt (e n c : Nat) (atts : List (Nat × Nat)) (fuel : Nat) :
    Option (List Nat) :=
  recoverCombine e n c (wiener_attack e n) (try_factor n atts fuel)

/-- Spec-side acceptance predicate of the Wiener attack, worded as in the
spec: `k ≠ 0`, `k` divides `E·d − 1` exactly, and with
`φ = (E·d − 1)/k`, `S = N − φ + 1`, `Δ = S² − 4N`, both `Δ ≥ 0` and `Δ` a
perfect square. -/
def wienerDisc (e n : Nat) (kd : Nat × Nat) : Int :=
  let phi := ((e : Int) * kd.2 - 1) / (kd.1 : Int)
  let s := (n : Int) - phi + 1
  s * s - 4 * (n : Int)

def wienerAccept (e n : Nat) (kd : Nat × Nat) : Bool :=
  decide (kd.1 ≠ 0 ∧ ((kd.1 : Int) ∣ ((e : Int) * kd.2 - 1)) ∧
    0 ≤ wienerDisc e n kd ∧ is_perfect_square (wienerDisc e n kd) = true)

/-- Spec-side recursion for the Pollard p-1 accumulator: `A₁ = 2` and
`A_J = A_{J-1}^J mod N` for each `J` from 2 to `B`. -/
def pm1A (n : Nat) : Nat → Nat
  | 0 => 2
  | 1 => 2
  | j + 2 => powMod n (pm1A n (j + 1)) (j + 2)

/-- Spec-side acceptance predicate of one Fermat step at value `a`. -/
def fermatAccept (n a : Nat) : Bool :=
  is_perfect_square ((a * a - n : Nat) : Int) &&
    decide ((a - isqrt (a * a - n)) * (a + isqrt (a * a - n)) = n ∧
      1 < a - isqrt (a * a - n) ∧ a - isqrt (a * a - n) < n)

/-- The factor reported by an accepting Fermat step at value `a`. -/
def fermatP (n a : Nat) : Nat := a - isqrt (a * a - n)

/-! ### Floor square root and modular exponentiation -/

theorem isqrtAux_spec (n : Nat) : ∀ fuel r, r * r ≤ n →
    n < (r + fuel + 1) * (r + fuel + 1) →
    isqrtAux n fuel r * isqrtAux n fuel r ≤ n ∧
      n < (isqrtAux n fuel r + 1) * (isqrtAux n fuel r + 1) := by
  intro fuel
  induction fuel with
  | zero =>
    intro r h1 h2
    simpa [isqrtAux] using ⟨h1, by simpa using h2⟩
  | succ fuel ih =>
    intro r h1 h2
    by_cases h : (r + 1) * (r + 1) ≤ n
    · have harg : n < (r + 1 + fuel + 1) * (r + 1 + fuel + 1) := by
        have hx : r + 1 + fuel + 1 = r + (fuel + 1) + 1 := by omega
        rw [hx]
        exact h2
      have := ih (r + 1) h harg
      simpa [isqrtAux, h] using this
    · simp only [isqrtAux, if_neg h]
      exact ⟨h1, by omega⟩

theorem isqrt_spec (n : Nat) : isqrt n * isqrt n ≤ n ∧ n < (isqrt n + 1) * (isqrt n + 1) := by
  have := isqrtAux_spec n n 0 (by simp) (by nlinarith)
  simpa [isqrt] using this

theorem le_of_mul_self_le {a b : Nat} (h : a * a ≤ b * b) : a ≤ b := by
  by_contra hab
  push_neg at hab
  nlinarith

theorem lt_of_mul_self_lt {a b : Nat} (h : a * a < b * b) : a < b := by
  by_contra hab
  push_neg at hab
  nlinarith

theorem isqrt_eq_of_sq {n r : Nat} (h : r * r = n) : isqrt n = r := by
  have h1 := (isqrt_spec n).1
  have h2 := (isqrt_spec n).2
  have hle : isqrt n ≤ r := le_of_mul_self_le (by rw [h]; exact h1)
  have hge : r < isqrt n + 1 := lt_of_mul_self_lt (by rw [h]; exact h2)
  omega

/-- C8: `is_perfect_square(N)` returns true iff some integer `R` has `R² = N`
(stated over all integers; for negative `N` both sides are false). -/
theorem is_perfect_square_iff (n : Int) :
    is_perfect_square n = true ↔ ∃ r : Int, r * r = n := by
  constructor
  · intro h
    by_cases hn : n < 0
    · simp [is_perfect_square, hn] at h
    · refine ⟨(isqrt n.toNat : Int), ?_⟩
      simp only [is_perfect_square, if_neg hn, beq_iff_eq] at h
      have : ((isqrt n.toNat * isqrt n.toNat : Nat) : Int) = ((n.toNat : Nat) : Int) := by
        exact_mod_cast congrArg (fun k : Nat => (k : Int)) h
      push_cast at this
      rw [this, Int.toNat_of_nonneg (by omega)]
  · rintro ⟨r, rfl⟩
    have hnn : (0 : Int) ≤ r * r := mul_self_nonneg r
    have htn : (r * r).toNat = r.natAbs * r.natAbs := by
      rw [← Int.natAbs_mul]
      omega
    simp only [is_perfect_square, if_neg (by omega : ¬ r * r < 0), htn, beq_iff_eq]
    rw [isqrt_eq_of_sq rfl]

theorem powModAux_eq (n : Nat) : ∀ fuel a e, e ≤ fuel → powModAux n fuel a e = a ^ e % n := by
  intro fuel
  induction fuel with
  | zero =>
    intro a e he
    have : e = 0 := by omega
    simp [powModAux, this]
  | succ fuel ih =>
    intro a e he
    by_cases he0 : e = 0
    · simp [powModAux, he0]
    · have hdiv : e / 2 ≤ fuel := by
        have := Nat.div_lt_self (Nat.pos_of_ne_zero he0) one_lt_two
        omega
      have hrec : powModAux n fuel (a * a % n) (e / 2) = a ^ (2 * (e / 2)) % n := by
        rw [ih (a * a % n) (e / 2) hdiv, ← Nat.pow_mod, ← pow_two, ← pow_mul]
      simp only [powModAux, if_neg he0, hrec]
      by_cases hpar : e % 2 = 1
      · rw [if_pos hpar, Nat.mod_mul_mod, ← pow_succ]
        congr 2
        omega
      · rw [if_neg hpar]
        have h2 : 2 * (e / 2) = e := by omega
        rw [h2]

theorem powMod_eq (n a e : Nat) : powMod n a e = a ^ e % n :=
  powModAux_eq n e a e le_rfl

/-! ### The Wiener attack as a first-accepting-convergent search -/

theorem wienerCheck_eq (e n : Nat) (kd : Nat × Nat) :
    wienerCheck e n kd = if wienerAccept e n kd then some kd.2 else none := by
  by_cases hk : kd.1 = 0
  · simp [wienerCheck, wienerAccept, hk]
  · by_cases hdvd : ((e : Int) * kd.2 - 1) % (kd.1 : Int) = 0
    · have hdvd2 : (kd.1 : Int) ∣ ((e : Int) * kd.2 - 1) := Int.dvd_iff_emod_eq_zero.mpr hdvd
      have hacc : wienerAccept e n kd =
          decide (0 ≤ wienerDisc e n kd ∧ is_perfect_square (wienerDisc e n kd) = true) := by
        simp [wienerAccept, hk, hdvd2]
      rw [hacc]
      simp only [wienerCheck, if_neg hk]
      rw [if_neg (by simpa using hdvd)]
      by_cases hrest : 0 ≤ wienerDisc e n kd ∧ is_perfect_square (wienerDisc e n kd) = true
      · rw [if_pos (by simpa [wienerDisc] using hrest), if_pos (by simpa using hrest)]
      · rw [if_neg (by simpa [wienerDisc] using hrest), if_neg (by simpa using hrest)]
    · have hdvd2 : ¬ (kd.1 : Int) ∣ ((e : Int) * kd.2 - 1) := fun h =>
        hdvd (Int.dvd_iff_emod_eq_zero.mp h)
      simp [wienerCheck, wienerAccept, hk, hdvd, hdvd2]

theorem findSome?_eq_map_find? {α β : Type} (p : α → Bool) (f : α → β) (g : α → Option β)
    (hg : ∀ a, g a = if p a then some (f a) else none) :
    ∀ l : List α, List.findSome? g l = Option.map f (List.find? p l) := by
  intro l
  induction l with
  | nil => simp
  | cons a t ih =>
    by_cases hp : p a
    · simp [List.findSome?_cons, hg a, hp, List.find?_cons_of_pos _ hp]
    · simp only [List.findSome?_cons, hg a, hp, if_false, List.find?_cons_of_neg _ hp, ih,
        Bool.false_eq_true]

/-- C2: `wiener_attack(E, N)` enumerates the convergents of the continued
fraction of `E/N` in order and returns the private-exponent component of the
first convergent satisfying the acceptance predicate (`k ≠ 0`, `k ∣ E·d − 1`,
`Δ ≥ 0`, `Δ` a perfect square), and `none` when no convergent is accepted. -/
theorem wiener_attack_first_accepting (e n : Nat) :
    wiener_attack e n =
      Option.map Prod.snd (List.find? (wienerAccept e n) (convergents (cont_frac e n))) :=
  findSome?_eq_map_find? (wienerAccept e n) Prod.snd (wienerCheck e n) (wienerCheck_eq e n) _

/-! ### Extended Euclid and modular inverse -/

theorem int_gcd_mod_step (a : Int) (b : Nat) :
    Int.gcd (b : Int) (a % (b : Int)) = Int.gcd a (b : Int) := by
  have ha2 : a % (b : Int) + (b : Int) * (a / (b : Int)) = a := by
    rw [Int.emod_def]; ring
  apply Nat.dvd_antisymm
  · rw [← Int.natCast_dvd_natCast]
    have h1 : (↑(Int.gcd (b : Int) (a % (b : Int))) : Int) ∣ (b : Int) := Int.gcd_dvd_left
    have h2 : (↑(Int.gcd (b : Int) (a % (b : Int))) : Int) ∣ a % (b : Int) := Int.gcd_dvd_right
    have h3 : (↑(Int.gcd (b : Int) (a % (b : Int))) : Int) ∣ a := by
      have hsum := dvd_add h2 (h1.mul_right (a / (b : Int)))
      rwa [ha2] at hsum
    exact Int.dvd_gcd h3 h1
  · rw [← Int.natCast_dvd_natCast]
    have h1 : (↑(Int.gcd a (b : Int)) : Int) ∣ a := Int.gcd_dvd_left
    have h2 : (↑(Int.gcd a (b : Int)) : Int) ∣ (b : Int) := Int.gcd_dvd_right
    have h3 : (↑(Int.gcd a (b : Int)) : Int) ∣ a % (b : Int) := by
      have hsub := dvd_sub h1 (h2.mul_right (a / (b : Int)))
      rwa [← Int.emod_def] at hsub
    exact Int.dvd_gcd h2 h3

theorem egcdAux_zero (fuel : Nat) (a : Int) : egcdAux fuel a 0 = (a, 1, 0) := by
  cases fuel <;> simp [egcdAux]

theorem egcdAux_spec : ∀ (fuel : Nat) (a : Int) (b : Nat), b ≤ fuel →
    a * (egcdAux fuel a b).2.1 + (b : Int) * (egcdAux fuel a b).2.2 = (egcdAux fuel a b).1 ∧
    (0 < b ∨ 0 ≤ a → (egcdAux fuel a b).1 = Int.gcd a b) := by
  intro fuel
  induction fuel with
  | zero =>
    intro a b hb
    have hb0 : b = 0 := by omega
    subst hb0
    refine ⟨by simp [egcdAux_zero], ?_⟩
    rintro (h | h)
    · exact absurd h (lt_irrefl 0)
    · rw [egcdAux_zero]
      simp [Int.gcd_zero_right, Int.natAbs_of_nonneg h]
  | succ fuel ih =>
    intro a b hb
    by_cases hb0 : b = 0
    · subst hb0
      refine ⟨by simp [egcdAux_zero], ?_⟩
      rintro (h | h)
      · exact absurd h (lt_irrefl 0)
      · rw [egcdAux_zero]
        simp [Int.gcd_zero_right, Int.natAbs_of_nonneg h]
    · have hbpos : 0 < b := Nat.pos_of_ne_zero hb0
      have hbne : ((b : Nat) : Int) ≠ 0 := by exact_mod_cast hb0
      have hmodnn : 0 ≤ a % (b : Int) := Int.emod_nonneg a hbne
      have hrval : (((a % (b : Int)).toNat : Nat) : Int) = a % (b : Int) :=
        Int.toNat_of_nonneg hmodnn
      have hrlt : (a % (b : Int)).toNat < b := by
        have := Int.emod_lt_of_pos a (show (0 : Int) < (b : Int) by exact_mod_cast hbpos)
        omega
      obtain ⟨ihB, ihG⟩ := ih (b : Int) (a % (b : Int)).toNat (by omega)
      have hunf : egcdAux (fuel + 1) a b =
          ((egcdAux fuel (b : Int) (a % (b : Int)).toNat).1,
           (egcdAux fuel (b : Int) (a % (b : Int)).toNat).2.2,
           (egcdAux fuel (b : Int) (a % (b : Int)).toNat).2.1 -
             (a / (b : Int)) * (egcdAux fuel (b : Int) (a % (b : Int)).toNat).2.2) := by
        simp only [egcdAux, if_neg hb0]
      rw [hunf]
      set t := egcdAux fuel (b : Int) (a % (b : Int)).toNat with ht
      constructor
      · rw [hrval] at ihB
        have hmod : a % (b : Int) = a - (b : Int) * (a / (b : Int)) := Int.emod_def a (b : Int)
        linear_combination ihB - t.2.2 * hmod
      · intro _
        have hg := ihG (Or.inr (by positivity))
        rw [hg, hrval, int_gcd_mod_step]

theorem egcd_spec (a : Int) (b : Nat) :
    a * (egcd a b).2.1 + (b : Int) * (egcd a b).2.2 = (egcd a b).1 ∧
    (0 < b ∨ 0 ≤ a → (egcd a b).1 = Int.gcd a b) :=
  egcdAux_spec b a b le_rfl

theorem invmod_spec (a : Int) (m : Nat) (hm : 1 < m) :
    (Int.gcd a m = 1 → ∃ x, invmod a m = some x ∧ 0 ≤ x ∧ x < m ∧ a * x % m = 1) ∧
    (Int.gcd a m ≠ 1 → invmod a m = none) := by
  obtain ⟨hB, hG⟩ := egcd_spec a m
  have hg : (egcd a m).1 = Int.gcd a m := hG (Or.inl (by omega))
  have hmne : ((m : Nat) : Int) ≠ 0 := by exact_mod_cast (by omega : m ≠ 0)
  have hmpos : (0 : Int) < (m : Int) := by exact_mod_cast (by omega : 0 < m)
  constructor
  · intro h1
    refine ⟨(egcd a m).2.1 % (m : Int), ?_, Int.emod_nonneg _ hmne, Int.emod_lt_of_pos _ hmpos, ?_⟩
    · simp only [invmod]
      rw [if_neg (by simp [hg, h1])]
    · have hg1 : (egcd a m).1 = 1 := by rw [hg, h1]; norm_num
      have hax : a * (egcd a m).2.1 = 1 + (m : Int) * (-(egcd a m).2.2) := by
        rw [hg1] at hB
        linarith
      have hx : a * (egcd a m).2.1 % (m : Int) = 1 % (m : Int) := by
        rw [hax, Int.add_mul_emod_self_left]
      have hmm : a * ((egcd a m).2.1 % (m : Int)) % (m : Int) =
          a * (egcd a m).2.1 % (m : Int) := by
        rw [Int.mul_emod, Int.emod_emod_of_dvd _ dvd_rfl, ← Int.mul_emod]
      rw [hmm, hx]
      exact Int.emod_eq_of_lt (by norm_num) (by exact_mod_cast hm)
  · intro h1
    simp only [invmod]
    rw [if_pos]
    rw [hg]
    exact_mod_cast h1

/-! ### Pollard p-1: spec recursion, characterization, invariants -/

theorem int_gcd_right_dvd (a : Int) (n : Nat) : Int.gcd a (n : Int) ∣ n := by
  have h := @Int.gcd_dvd_right a (n : Int)
  exact_mod_cast h

theorem pm1_fold_eq (n : Nat) : ∀ B : Nat,
    (List.range' 2 (B - 1)).foldl (fun a j => powMod n a j) 2 = pm1A n B := by
  intro B
  induction B with
  | zero => simp [pm1A]
  | succ B ih =>
    cases B with
    | zero => simp [pm1A]
    | succ B2 =>
      have hsplit : List.range' 2 (B2 + 1) = List.range' 2 B2 ++ List.range' (2 + B2) 1 := by
        rw [List.range'_append_1, Nat.add_comm]
      show (List.range' 2 (B2 + 1)).foldl (fun a j => powMod n a j) 2 = pm1A n (B2 + 2)
      rw [hsplit, List.foldl_append]
      simp only [List.range'_one, List.foldl_cons, List.foldl_nil]
      have hred : List.range' 2 B2 = List.range' 2 (B2 + 1 - 1) := by norm_num
      rw [hred, ih]
      show powMod n (pm1A n (B2 + 1)) (2 + B2) = pm1A n (B2 + 2)
      rw [show 2 + B2 = B2 + 2 by omega]
      rfl

/-- C7: `pollards_p_minus_1(N, B)` computes the accumulator by the recursion
`A₁ = 2`, `A_J = A_{J-1}^J mod N` for `J = 2, …, B` (this is `pm1A`), then
returns `gcd(A_B − 1, N)` exactly when that gcd lies strictly between 1 and
`N`, and `none` otherwise. -/
theorem pollards_p_minus_1_characterization (n B : Nat) :
    pollards_p_minus_1 n B =
      (if 1 < Int.gcd ((pm1A n B : Int) - 1) (n : Int) ∧
          Int.gcd ((pm1A n B : Int) - 1) (n : Int) < n then
        some (Int.gcd ((pm1A n B : Int) - 1) (n : Int))
      else none) := by
  simp only [pollards_p_minus_1, pm1_fold_eq]

theorem pollards_p_minus_1_some {n B d : Nat} (h : pollards_p_minus_1 n B = some d) :
    d ∣ n ∧ 1 < d ∧ d < n := by
  simp only [pollards_p_minus_1] at h
  split at h
  · rename_i hc
    injection h with h
    subst h
    exact ⟨int_gcd_right_dvd _ n, hc⟩
  · exact absurd h (by simp)

theorem pm1_none_of_prime {n B : Nat} (hp : Nat.Prime n) : pollards_p_minus_1 n B = none := by
  cases h : pollards_p_minus_1 n B with
  | none => rfl
  | some d =>
    exfalso
    obtain ⟨hdvd, h1, h2⟩ := pollards_p_minus_1_some h
    rcases hp.eq_one_or_self_of_dvd d hdvd with h | h <;> omega

theorem pm1_none_of_fold_one {n B k : Nat} (hn : 1 < n) (hk : k + 1 ≤ B)
    (hfold : (List.range' 2 k).foldl (fun a j => powMod n a j) 2 = 1) :
    pollards_p_minus_1 n B = none := by
  have hsplit : List.range' 2 (B - 1) = List.range' 2 k ++ List.range' (2 + k) (B - 1 - k) := by
    rw [List.range'_append_1]
    congr 1
    omega
  have hone : ∀ l : List Nat, l.foldl (fun a j => powMod n a j) 1 = 1 := by
    intro l
    induction l with
    | nil => rfl
    | cons x t ih =>
      simp only [List.foldl_cons]
      rw [powMod_eq, one_pow, Nat.mod_eq_of_lt hn]
      exact ih
  simp only [pollards_p_minus_1, hsplit, List.foldl_append, hfold, hone]
  norm_num

/-! ### Fermat's method: characterization and invariants -/

theorem fermatA0_spec (n : Nat) :
    n ≤ fermatA0 n * fermatA0 n ∧
      (fermatA0 n = 0 ∨ (fermatA0 n - 1) * (fermatA0 n - 1) < n) := by
  obtain ⟨h1, h2⟩ := isqrt_spec n
  by_cases h : isqrt n * isqrt n < n
  · simp only [fermatA0, if_pos h]
    exact ⟨by omega, Or.inr (by simpa using h)⟩
  · simp only [fermatA0, if_neg h]
    refine ⟨by omega, ?_⟩
    by_cases hz : isqrt n = 0
    · exact Or.inl hz
    · right
      obtain ⟨s, hs⟩ := Nat.exists_eq_succ_of_ne_zero hz
      rw [hs]
      rw [hs] at h
      simp only [Nat.succ_sub_one]
      nlinarith [h]

theorem fermatLoop_char (n : Nat) : ∀ (fuel a : Nat),
    fermatLoop n a fuel =
      Option.map (fun i => fermatP n (a + i))
        (List.find? (fun i => fermatAccept n (a + i)) (List.range fuel)) := by
  intro fuel
  induction fuel with
  | zero => intro a; simp [fermatLoop]
  | succ fuel ih =>
    intro a
    by_cases hacc : fermatAccept n a = true
    · have hparts := hacc
      simp only [fermatAccept, Bool.and_eq_true, decide_eq_true_eq] at hparts
      obtain ⟨hs, hc⟩ := hparts
      simp only [fermatLoop]
      rw [if_pos hs, if_pos hc, List.range_succ_eq_map,
        List.find?_cons_of_pos _ (by simpa using hacc)]
      simp [fermatP]
    · have hstep : fermatLoop n a (fuel + 1) = fermatLoop n (a + 1) fuel := by
        simp only [fermatLoop]
        by_cases hs : is_perfect_square ((a * a - n : Nat) : Int) = true
        · rw [if_pos hs, if_neg]
          intro hc
          exact hacc (by simp [fermatAccept, hs, hc])
        · rw [if_neg hs]
      have hpred : ((fun i => fermatAccept n (a + i)) ∘ Nat.succ) =
          (fun i => fermatAccept n (a + 1 + i)) := by
        funext i
        simp only [Function.comp]
        congr 1
        omega
      have hfp : ((fun i => fermatP n (a + i)) ∘ Nat.succ) =
          (fun i => fermatP n (a + 1 + i)) := by
        funext i
        simp only [Function.comp]
        congr 1
        omega
      rw [hstep, ih (a + 1), List.range_succ_eq_map,
        List.find?_cons_of_neg _ (by simpa using hacc), List.find?_map, Option.map_map,
        hpred, hfp]

theorem fermatLoop_some {n f : Nat} : ∀ {fuel a : Nat}, fermatLoop n a fuel = some f →
    f ∣ n ∧ 1 < f ∧ f < n := by
  intro fuel
  induction fuel with
  | zero => intro a h; simp [fermatLoop] at h
  | succ fuel ih =>
    intro a h
    simp only [fermatLoop] at h
    by_cases hs : is_perfect_square ((a * a - n : Nat) : Int) = true
    · rw [if_pos hs] at h
      by_cases hc : (a - isqrt (a * a - n)) * (a + isqrt (a * a - n)) = n ∧
          1 < a - isqrt (a * a - n) ∧ a - isqrt (a * a - n) < n
      · rw [if_pos hc] at h
        injection h with h
        subst h
        exact ⟨⟨a + isqrt (a * a - n), hc.1.symm⟩, hc.2⟩
      · rw [if_neg hc] at h
        exact ih h
    · rw [if_neg hs] at h
      exact ih h

theorem fermat_factor_some {n cap f : Nat} (h : fermat_factor n cap = some f) :
    (n % 2 = 0 ∧ f = 2) ∨ (f ∣ n ∧ 1 < f ∧ f < n) := by
  simp only [fermat_factor] at h
  by_cases he : n % 2 = 0
  · rw [if_pos he] at h
    injection h with h
    exact Or.inl ⟨he, h.symm⟩
  · rw [if_neg he] at h
    exact Or.inr (fermatLoop_some h)

theorem fermat_factor_none_of_prime {n cap : Nat} (hp : Nat.Prime n) (ho : n % 2 = 1) :
    fermat_factor n cap = none := by
  cases hl : fermat_factor n cap with
  | none => rfl
  | some f =>
    exfalso
    rcases fermat_factor_some hl with ⟨he, _⟩ | ⟨hdvd, h1, h2⟩
    · omega
    · rcases hp.eq_one_or_self_of_dvd f hdvd with h | h <;> omega

/-! ### Pollard rho invariants -/

theorem innerLoopAux_g (n c x : Nat) : ∀ fuel k r y q ys,
    (innerLoopAux n c x fuel k r y q ys).2.2.1 = 1 ∨
      ((innerLoopAux n c x fuel k r y q ys).2.2.1 ∣ n ∧
        (innerLoopAux n c x fuel k r y q ys).2.2.1 ≠ 1) := by
  intro fuel
  induction fuel with
  | zero => intro k r y q ys; left; rfl
  | succ fuel ih =>
    intro k r y q ys
    simp only [innerLoopAux]
    by_cases hk : k < r
    · rw [if_pos hk]
      by_cases hg : Nat.gcd (batchAdvance n c x (min 4096 (r - k)) y q).2 n = 1
      · rw [if_pos hg]
        exact ih _ _ _ _ _
      · rw [if_neg hg]
        exact Or.inr ⟨Nat.gcd_dvd_right _ _, hg⟩
    · rw [if_neg hk]
      left
      rfl

theorem brentLoop_some {n c : Nat} : ∀ {fuel y x ys r q g : Nat} {st : Nat × Nat × Nat},
    brentLoop n c fuel y x ys r q g = some st → (g = 1 ∨ g ∣ n) →
    st.1 ∣ n ∧ st.1 ≠ 1 := by
  intro fuel
  induction fuel with
  | zero =>
    intro y x ys r q g st h _
    exact absurd h (by simp [brentLoop])
  | succ fuel ih =>
    intro y x ys r q g st h hg
    simp only [brentLoop] at h
    by_cases h1 : g = 1
    · rw [if_pos h1] at h
      refine ih h ?_
      rcases innerLoopAux_g n c y r 0 r (Nat.iterate (rhoF n c) r y) q ys with hh | hh
      · exact Or.inl hh
      · exact Or.inr hh.1
    · rw [if_neg h1] at h
      rw [Option.some.injEq] at h
      subst h
      exact ⟨hg.resolve_left h1, h1⟩

theorem fallbackLoop_some {n c x : Nat} : ∀ {fuel ys g : Nat},
    fallbackLoop n c x fuel ys = some g → g ∣ n ∧ 1 < g := by
  intro fuel
  induction fuel with
  | zero =>
    intro ys g h
    exact absurd h (by simp [fallbackLoop])
  | succ fuel ih =>
    intro ys g h
    simp only [fallbackLoop] at h
    by_cases h1 : 1 < Nat.gcd ((x : Int) - ((rhoF n c ys : Nat) : Int)).natAbs n
    · rw [if_pos h1] at h
      rw [Option.some.injEq] at h
      subst h
      exact ⟨Nat.gcd_dvd_right _ _, h1⟩
    · rw [if_neg h1] at h
      exact ih h

theorem rhoAttempt_some {n y0 c fuel g : Nat} (h : rhoAttempt n y0 c fuel = some g) :
    1 < g ∧ g < n ∧ g ∣ n := by
  simp only [rhoAttempt] at h
  split at h
  · exact absurd h (by simp)
  · rename_i st hb
    obtain ⟨hdvd, hne⟩ := brentLoop_some hb (Or.inl rfl)
    split at h
    · rename_i heq
      split at h
      · exact absurd h (by simp)
      · rename_i g2 hf
        split at h
        · rename_i hcond
          rw [Option.some.injEq] at h
          subst h
          exact ⟨hcond.1, hcond.2, (fallbackLoop_some hf).1⟩
        · exact absurd h (by simp)
    · rename_i heq
      split at h
      · rename_i hcond
        rw [Option.some.injEq] at h
        subst h
        exact ⟨hcond.1, hcond.2, hdvd⟩
      · exact absurd h (by simp)

theorem pollards_rho_some {n : Nat} {atts : List (Nat × Nat)} {fuel g : Nat}
    (h : pollards_rho n atts fuel = some g) :
    (n % 2 = 0 ∧ g = 2) ∨ (1 < g ∧ g < n ∧ g ∣ n) := by
  simp only [pollards_rho] at h
  by_cases he : n % 2 = 0
  · rw [if_pos he] at h
    rw [Option.some.injEq] at h
    exact Or.inl ⟨he, h.symm⟩
  · rw [if_neg he] at h
    obtain ⟨yc, _, hyc⟩ := List.exists_of_findSome?_eq_some h
    exact Or.inr (rhoAttempt_some hyc)

theorem rho_none_of_prime {n : Nat} (hp : Nat.Prime n) (ho : n % 2 = 1)
    (atts : List (Nat × Nat)) (fuel : Nat) : pollards_rho n atts fuel = none := by
  cases h : pollards_rho n atts fuel with
  | none => rfl
  | some g =>
    exfalso
    rcases pollards_rho_some h with ⟨he, _⟩ | ⟨h1, h2, hdvd⟩
    · omega
    · rcases hp.eq_one_or_self_of_dvd g hdvd with h | h <;> omega

/-! ### The factorization orchestrator -/

theorem tfCombine_some {n f c2 : Nat} : ∀ {o1 o2 o3 : Option Nat},
    tfCombine n o1 o2 o3 = some (f, c2) →
    c2 = n / f ∧ (o1 = some f ∨ (o1 = none ∧ o2 = some f) ∨
      (o1 = none ∧ o2 = none ∧ o3 = some f)) := by
  intro o1 o2 o3 h
  cases o1 with
  | some f1 =>
    simp only [tfCombine, Option.some.injEq, Prod.mk.injEq] at h
    obtain ⟨rfl, rfl⟩ := h
    exact ⟨rfl, Or.inl rfl⟩
  | none =>
    cases o2 with
    | some f1 =>
      simp only [tfCombine, Option.some.injEq, Prod.mk.injEq] at h
      obtain ⟨rfl, rfl⟩ := h
      exact ⟨rfl, Or.inr (Or.inl ⟨rfl, rfl⟩)⟩
    | none =>
      cases o3 with
      | some f1 =>
        simp only [tfCombine, Option.some.injEq, Prod.mk.injEq] at h
        obtain ⟨rfl, rfl⟩ := h
        exact ⟨rfl, Or.inr (Or.inr ⟨rfl, rfl, rfl⟩)⟩
      | none => exact absurd h (by simp [tfCombine])

theorem try_factor_some {n : Nat} {atts : List (Nat × Nat)} {fuel f c2 : Nat}
    (h : try_factor n atts fuel = some (f, c2)) :
    c2 = n / f ∧ ((n % 2 = 0 ∧ f = 2) ∨ (f ∣ n ∧ 1 < f ∧ f < n)) := by
  obtain ⟨hc2, hcase⟩ := tfCombine_some h
  refine ⟨hc2, ?_⟩
  rcases hcase with h1 | ⟨_, h2⟩ | ⟨_, _, h3⟩
  · obtain ⟨B, _, hB⟩ := List.exists_of_findSome?_eq_some h1
    exact Or.inr (pollards_p_minus_1_some hB)
  · rcases pollards_rho_some h2 with ⟨he, hf2⟩ | ⟨ha, hb2, hdvd⟩
    · exact Or.inl ⟨he, hf2⟩
    · exact Or.inr ⟨hdvd, ha, hb2⟩
  · rcases fermat_factor_some h3 with ⟨he, hf2⟩ | hgood
    · exact Or.inl ⟨he, hf2⟩
    · exact Or.inr hgood

theorem tfCombine_or (n : Nat) (o1 o2 o3 : Option Nat) :
    tfCombine n o1 o2 o3 =
      Option.map (fun f => (f, n / f)) (Option.or o1 (List.findSome? id [o2, o3])) := by
  cases o1 <;> cases o2 <;> cases o3 <;> simp [tfCombine, List.findSome?_cons]

/-- C4: `try_factor(N)` is the first-success composition of Pollard p-1 at
bounds 100000, 300000, 700000, 1200000 in that order, then Pollard rho, then
Fermat with cap 1000000, each success paired with its cofactor; it is `none`
exactly when every stage fails.  (The embedding is pure, so "without invoking
any later method" is expressed by this result-level equality.) -/
theorem try_factor_method_order (n : Nat) (atts : List (Nat × Nat)) (fuel : Nat) :
    try_factor n atts fuel =
      Option.map (fun f => (f, n / f))
        (List.findSome? id
          [pollards_p_minus_1 n 100000, pollards_p_minus_1 n 300000,
           pollards_p_minus_1 n 700000, pollards_p_minus_1 n 1200000,
           pollards_rho n atts fuel, fermat_factor n 1000000]) := by
  have hmap : List.findSome? id
      [pollards_p_minus_1 n 100000, pollards_p_minus_1 n 300000,
       pollards_p_minus_1 n 700000, pollards_p_minus_1 n 1200000] =
      List.findSome? (fun B => pollards_p_minus_1 n B) [100000, 300000, 700000, 1200000] := by
    show List.findSome? id
        (List.map (fun B => pollards_p_minus_1 n B) [100000, 300000, 700000, 1200000]) = _
    rw [List.findSome?_map]
    rfl
  have key : (List.findSome? id
      [pollards_p_minus_1 n 100000, pollards_p_minus_1 n 300000,
       pollards_p_minus_1 n 700000, pollards_p_minus_1 n 1200000,
       pollards_rho n atts fuel, fermat_factor n 1000000] : Option Nat) =
      Option.or
        (List.findSome? (fun B => pollards_p_minus_1 n B) [100000, 300000, 700000, 1200000])
        (List.findSome? id [pollards_rho n atts fuel, fermat_factor n 1000000]) := by
    show List.findSome? id
        ([pollards_p_minus_1 n 100000, pollards_p_minus_1 n 300000,
          pollards_p_minus_1 n 700000, pollards_p_minus_1 n 1200000] ++
         [pollards_rho n atts fuel, fermat_factor n 1000000]) = _
    rw [List.findSome?_append, hmap]
  rw [key]
  exact tfCombine_or n _ _ _

/-! ### RSA correctness core -/

theorem fermat_step (p : Nat) (hp : Nat.Prime p) (m k : Nat) :
    m ^ (k * (p - 1) + 1) ≡ m [MOD p] := by
  by_cases hpm : p ∣ m
  · have hm0 : m ≡ 0 [MOD p] := (Nat.modEq_zero_iff_dvd).mpr hpm
    calc m ^ (k * (p - 1) + 1) ≡ 0 ^ (k * (p - 1) + 1) [MOD p] := hm0.pow _
      _ = 0 := zero_pow (Nat.succ_ne_zero _)
      _ ≡ m [MOD p] := hm0.symm
  · have hc : Nat.Coprime m p := ((hp.coprime_iff_not_dvd).mpr hpm).symm
    have h1 : m ^ Nat.totient p ≡ 1 [MOD p] := Nat.ModEq.pow_totient hc
    rw [Nat.totient_prime hp] at h1
    calc m ^ (k * (p - 1) + 1) = (m ^ (p - 1)) ^ k * m := by
          rw [← pow_mul, ← pow_succ]
          congr 1
          ring
      _ ≡ 1 ^ k * m [MOD p] := (h1.pow k).mul_right m
      _ = m := by rw [one_pow, one_mul]

theorem rsa_pow_cycle (p q : Nat) (hp : Nat.Prime p) (hq : Nat.Prime q) (hpq : p ≠ q)
    (m t : Nat) : m ^ (t * ((p - 1) * (q - 1)) + 1) ≡ m [MOD p * q] := by
  have hcpq : Nat.Coprime p q := (Nat.coprime_primes hp hq).mpr hpq
  rw [← Nat.modEq_and_modEq_iff_modEq_mul hcpq]
  constructor
  · have he : t * ((p - 1) * (q - 1)) = t * (q - 1) * (p - 1) := by ring
    rw [he]
    exact fermat_step p hp m (t * (q - 1))
  · have he : t * ((p - 1) * (q - 1)) = t * (p - 1) * (q - 1) := by ring
    rw [he]
    exact fermat_step q hq m (t * (p - 1))

theorem rsa_decrypt (p q e d m : Nat) (hp : Nat.Prime p) (hq : Nat.Prime q) (hpq : p ≠ q)
    (hm : m < p * q) (hed : e * d % ((p - 1) * (q - 1)) = 1) :
    (m ^ e % (p * q)) ^ d % (p * q) = m := by
  have h1 : (m ^ e % (p * q)) ^ d % (p * q) = m ^ (e * d) % (p * q) := by
    rw [← Nat.pow_mod, ← pow_mul]
  have hdecomp : e * d = (e * d / ((p - 1) * (q - 1))) * ((p - 1) * (q - 1)) + 1 := by
    have h0 := Nat.div_add_mod (e * d) ((p - 1) * (q - 1))
    have hc : e * d / ((p - 1) * (q - 1)) * ((p - 1) * (q - 1)) =
        (p - 1) * (q - 1) * (e * d / ((p - 1) * (q - 1))) := Nat.mul_comm _ _
    omega
  have h2 : m ^ (e * d) ≡ m [MOD p * q] := by
    rw [hdecomp]
    exact rsa_pow_cycle p q hp hq hpq m _
  rw [h1]
  have h3 : m ^ (e * d) % (p * q) = m % (p * q) := h2
  rw [h3, Nat.mod_eq_of_lt hm]

theorem semiprime_divisor {p q f : Nat} (hp : Nat.Prime p) (hq : Nat.Prime q)
    (hf : f ∣ p * q) (h1 : 1 < f) (h2 : f < p * q) : f = p ∨ f = q := by
  by_cases hpf : p ∣ f
  · obtain ⟨g, rfl⟩ := hpf
    have hg : g ∣ q := by
      have hdvd : p * g ∣ p * q := hf
      exact (mul_dvd_mul_iff_left (Nat.Prime.ne_zero hp)).mp hdvd
    rcases (Nat.Prime.eq_one_or_self_of_dvd hq g hg) with h | h
    · left
      rw [h, mul_one]
    · exfalso
      rw [h] at h2
      exact lt_irrefl _ h2
  · have hcop : Nat.Coprime f p := ((hp.coprime_iff_not_dvd).mpr hpf).symm
    have hfq : f ∣ q := by
      have := Nat.Coprime.dvd_of_dvd_mul_left hcop hf
      exact this
    rcases (Nat.Prime.eq_one_or_self_of_dvd hq f hfq) with h | h
    · omega
    · right
      exact h

theorem semiprime_phi_pos {p q : Nat} (hp : Nat.Prime p) (hq : Nat.Prime q) (hpq : p ≠ q) :
    1 < (p - 1) * (q - 1) := by
  have hp2 := hp.two_le
  have hq2 := hq.two_le
  have h3 : 3 ≤ p ∨ 3 ≤ q := by omega
  rcases h3 with h3 | h3
  · have := Nat.mul_le_mul (show 2 ≤ p - 1 by omega) (show 1 ≤ q - 1 by omega)
    omega
  · have := Nat.mul_le_mul (show 1 ≤ p - 1 by omega) (show 2 ≤ q - 1 by omega)
    omega

/-! ### Key recovery service: branch lemmas -/

theorem recover_wiener_branch (e n c : Nat) (atts : List (Nat × Nat)) (fuel d : Nat)
    (hw : wiener_attack e n = some d) :
    recover_and_decrypt e n c atts fuel = some (long_to_bytes (powMod n c d)) := by
  unfold recover_and_decrypt
  rw [hw]
  rfl

theorem recover_none_factorization_failed (e n c : Nat) (atts : List (Nat × Nat)) (fuel : Nat)
    (hw : wiener_attack e n = none) (hf : try_factor n atts fuel = none) :
    recover_and_decrypt e n c atts fuel = none := by
  unfold recover_and_decrypt
  rw [hw, hf]
  rfl

theorem recover_none_no_inverse (e n c : Nat) (atts : List (Nat × Nat)) (fuel P Q : Nat)
    (hw : wiener_attack e n = none) (hf : try_factor n atts fuel = some (P, Q))
    (hinv : invmod (e : Int) ((P - 1) * (Q - 1)) = none) :
    recover_and_decrypt e n c atts fuel = none := by
  unfold recover_and_decrypt
  rw [hw, hf]
  simp only [recoverCombine, hinv]

theorem recover_factor_branch (e n c : Nat) (atts : List (Nat × Nat)) (fuel P Q : Nat)
    (x : Int) (hw : wiener_attack e n = none) (hf : try_factor n atts fuel = some (P, Q))
    (hinv : invmod (e : Int) ((P - 1) * (Q - 1)) = some x) :
    recover_and_decrypt e n c atts fuel = some (long_to_bytes (powMod n c x.toNat)) := by
  unfold recover_and_decrypt
  rw [hw, hf]
  simp only [recoverCombine, hinv]

/-! ### Claim theorems: characterizations and the end-to-end contract -/

/-- C6: `fermat_factor(N, cap)` returns 2 immediately for even `N`; otherwise
it starts at `fermatA0 N` (the ceiling of the integer square root: the least
`A` with `N ≤ A²`, as the last two conjuncts state) and returns the factor
`A - B` of the first `A` among `fermatA0 N, …, fermatA0 N + cap - 1` whose
step is accepted (`A² - N` a perfect square with root `B`, `(A-B)(A+B) = N`
and `1 < A-B < N`), and `none` exactly when the cap is exhausted without an
accepted step. -/
theorem fermat_factor_characterization (n cap : Nat) :
    fermat_factor n cap =
      (if n % 2 = 0 then some 2
       else
        Option.map (fun i => fermatP n (fermatA0 n + i))
          (List.find? (fun i => fermatAccept n (fermatA0 n + i)) (List.range cap))) ∧
    n ≤ fermatA0 n * fermatA0 n ∧
    (fermatA0 n = 0 ∨ (fermatA0 n - 1) * (fermatA0 n - 1) < n) := by
  refine ⟨?_, fermatA0_spec n⟩
  by_cases h : n % 2 = 0
  · simp [fermat_factor, h]
  · simp only [fermat_factor, if_neg h]
    exact fermatLoop_char n cap (fermatA0 n)

/-- C5: whenever `try_factor` on a product of two primes returns a pair
`(P, Q)`, that pair satisfies `P·Q = N` and `1 < P < N`. -/
theorem try_factor_nontrivial_divisor (n : Nat) (atts : List (Nat × Nat)) (fuel : Nat)
    (P Q : Nat) (hsemi : ∃ p q, Nat.Prime p ∧ Nat.Prime q ∧ n = p * q)
    (h : try_factor n atts fuel = some (P, Q)) :
    P * Q = n ∧ 1 < P ∧ P < n := by
  obtain ⟨p, q, hp, hq, rfl⟩ := hsemi
  obtain ⟨hQ, hcase⟩ := try_factor_some h
  subst hQ
  have hn4 : 2 * 2 ≤ p * q := Nat.mul_le_mul hp.two_le hq.two_le
  rcases hcase with ⟨he, rfl⟩ | ⟨hdvd, h1, h2⟩
  · have h2d : (2 : Nat) ∣ p * q := Nat.dvd_of_mod_eq_zero he
    exact ⟨Nat.mul_div_cancel' h2d, by omega, by omega⟩
  · exact ⟨Nat.mul_div_cancel' hdvd, h1, h2⟩

/-- C9: the factorization methods are total functions returning ordinary
values on degenerate inputs: for even `N`, rho and Fermat return the factor 2
as a fast path; for an odd prime `N`, rho, Fermat and p-1 all return the
not-found value `none` (no exception is possible in the embedding — every
outcome is an `Option` value); and the Wiener attack likewise always returns
either a `some` exponent or `none`. -/
theorem methods_total_on_degenerate (n B cap fuel e : Nat) (atts : List (Nat × Nat)) :
    (n % 2 = 0 → pollards_rho n atts fuel = some 2 ∧ fermat_factor n cap = some 2) ∧
    (Nat.Prime n → n % 2 = 1 →
      pollards_rho n atts fuel = none ∧ fermat_factor n cap = none ∧
      pollards_p_minus_1 n B = none) ∧
    ((wiener_attack e n).isSome = true ∨ wiener_attack e n = none) := by
  refine ⟨?_, ?_, ?_⟩
  · intro he
    exact ⟨by simp [pollards_rho, he], by simp [fermat_factor, he]⟩
  · intro hp ho
    exact ⟨rho_none_of_prime hp ho atts fuel, fermat_factor_none_of_prime hp ho,
      pm1_none_of_prime hp⟩
  · cases h : wiener_attack e n with
    | none => exact Or.inr rfl
    | some d => exact Or.inl rfl

/-- C1 (amended): for distinct primes `P, Q`, `E` coprime to the totient and
`M < N`, the service on `(E, N, M^E mod N)` returns the byte rendering of `M`
provided at least one of the Wiener attack or the factorization orchestrator
succeeds on `(E, N)` — and additionally any exponent `D` the Wiener attack
returns is valid, `E·D ≡ 1 (mod (P−1)(Q−1))` (the acceptance test of the
source can accept an invalid exponent, which the counterexample exhibits). -/
theorem recover_and_decrypt_correct
    (p q e m fuel : Nat) (atts : List (Nat × Nat))
    (hp : Nat.Prime p) (hq : Nat.Prime q) (hpq : p ≠ q)
    (hcop : Nat.Coprime e ((p - 1) * (q - 1)))
    (hm : m < p * q)
    (hwiener : ∀ d, wiener_attack e (p * q) = some d → e * d % ((p - 1) * (q - 1)) = 1)
    (hsucc : (wiener_attack e (p * q)).isSome = true ∨
      (try_factor (p * q) atts fuel).isSome = true) :
    recover_and_decrypt e (p * q) (m ^ e % (p * q)) atts fuel = some (long_to_bytes m) := by
  cases hw : wiener_attack e (p * q) with
  | some d =>
    rw [recover_wiener_branch e (p * q) (m ^ e % (p * q)) atts fuel d hw]
    have hdec : powMod (p * q) (m ^ e % (p * q)) d = m := by
      rw [powMod_eq]
      exact rsa_decrypt p q e d m hp hq hpq hm (hwiener d hw)
    rw [hdec]
  | none =>
    rcases hsucc with hs | hs
    · rw [hw] at hs
      simp at hs
    · cases hf : try_factor (p * q) atts fuel with
      | none =>
        rw [hf] at hs
        simp at hs
      | some pq2 =>
        obtain ⟨P, Q⟩ := pq2
        obtain ⟨hQ, hcase⟩ := try_factor_some hf
        subst hQ
        have hn4 : 2 * 2 ≤ p * q := Nat.mul_le_mul hp.two_le hq.two_le
        have hPdata : P ∣ p * q ∧ 1 < P ∧ P < p * q := by
          rcases hcase with ⟨he2, rfl⟩ | hgood
          · exact ⟨Nat.dvd_of_mod_eq_zero he2, by omega, by omega⟩
          · exact hgood
        obtain ⟨hPdvd, hP1, hPn⟩ := hPdata
        have hphi : (P - 1) * (p * q / P - 1) = (p - 1) * (q - 1) := by
          rcases semiprime_divisor hp hq hPdvd hP1 hPn with rfl | rfl
          · rw [Nat.mul_div_cancel_left q hp.pos]
          · rw [Nat.mul_div_cancel p hq.pos]
            ring
        have hphipos : 1 < (p - 1) * (q - 1) := semiprime_phi_pos hp hq hpq
        have hgcd1 : Int.gcd (e : Int) (((p - 1) * (q - 1) : Nat) : Int) = 1 := by
          rw [Int.gcd_natCast_natCast]
          exact hcop
        obtain ⟨x, hxinv, hx0, hxlt, hxmod⟩ :=
          (invmod_spec (e : Int) ((p - 1) * (q - 1)) hphipos).1 hgcd1
        have hinv2 : invmod (e : Int) ((P - 1) * (p * q / P - 1)) = some x := by
          rw [hphi]
          exact hxinv
        rw [recover_factor_branch e (p * q) (m ^ e % (p * q)) atts fuel P (p * q / P) x
          hw hf hinv2]
        have hed : e * x.toNat % ((p - 1) * (q - 1)) = 1 := by
          have h1 : ((e * x.toNat % ((p - 1) * (q - 1)) : Nat) : Int) = 1 := by
            push_cast
            rw [Int.toNat_of_nonneg hx0]
            exact hxmod
          exact_mod_cast h1
        have hdec : powMod (p * q) (m ^ e % (p * q)) x.toNat = m := by
          rw [powMod_eq]
          exact rsa_decrypt p q e x.toNat m hp hq hpq hm hed
        rw [hdec]

/-! ### Concrete facts used by counterexamples and witnesses -/

theorem pm1_bounds_none_15 : List.findSome? (fun B => pollards_p_minus_1 15 B)
    [100000, 300000, 700000, 1200000] = none := by
  rw [List.findSome?_eq_none_iff]
  intro B hB
  have hfold : (List.range' 2 3).foldl (fun a j => powMod 15 a j) 2 = 1 := by decide
  fin_cases hB <;> exact pm1_none_of_fold_one (by norm_num) (by norm_num) hfold

theorem pm1_bounds_none_33 : List.findSome? (fun B => pollards_p_minus_1 33 B)
    [100000, 300000, 700000, 1200000] = none := by
  rw [List.findSome?_eq_none_iff]
  intro B hB
  have hfold : (List.range' 2 4).foldl (fun a j => powMod 33 a j) 2 = 1 := by decide
  fin_cases hB <;> exact pm1_none_of_fold_one (by norm_num) (by norm_num) hfold

theorem try_factor_15 : try_factor 15 [(2, 1)] 2 = some (3, 5) := by
  unfold try_factor
  rw [pm1_bounds_none_15, show pollards_rho 15 [(2, 1)] 2 = some 3 from by decide]
  rfl

theorem try_factor_33 : try_factor 33 [(2, 1)] 2 = some (3, 11) := by
  unfold try_factor
  rw [pm1_bounds_none_33, show pollards_rho 33 [(2, 1)] 2 = some 3 from by decide]
  rfl

theorem try_factor_prime5 (fuel : Nat) : try_factor 5 [] fuel = none := by
  unfold try_factor
  have h1 : List.findSome? (fun B => pollards_p_minus_1 5 B)
      [100000, 300000, 700000, 1200000] = none := by
    rw [List.findSome?_eq_none_iff]
    intro B _
    exact pm1_none_of_prime (by norm_num)
  rw [h1, rho_none_of_prime (by norm_num) (by norm_num) [] fuel,
    fermat_factor_none_of_prime (by norm_num) (by norm_num)]
  rfl

/-! ### The failure taxonomy of the key recovery service -/

/-- C3 (amended): both failure kinds of the service are reported as the same
undifferentiated not-found value `none` — exhausting all factorization
methods and a missing modular inverse produce identical results. -/
theorem recover_failures_undifferentiated (e n c : Nat) (atts : List (Nat × Nat))
    (fuel P Q : Nat) :
    (wiener_attack e n = none → try_factor n atts fuel = none →
      recover_and_decrypt e n c atts fuel = none) ∧
    (wiener_attack e n = none → try_factor n atts fuel = some (P, Q) →
      invmod (e : Int) ((P - 1) * (Q - 1)) = none →
      recover_and_decrypt e n c atts fuel = none) :=
  ⟨fun hw hf => recover_none_factorization_failed e n c atts fuel hw hf,
   fun hw hf hi => recover_none_no_inverse e n c atts fuel P Q hw hf hi⟩

/-- C3 counterexample: on `(5, 5, 1)` every factorization method is exhausted
and on `(2, 15, 7)` factorization succeeds with `(3, 5)` but `E = 2` has no
inverse mod `(3−1)(5−1) = 8`; the service returns the same value `none` for
both, so the two failure kinds are not distinguishable in its result. -/
theorem failure_kinds_not_distinguishable :
    (wiener_attack 5 5 = none ∧ try_factor 5 [] 0 = none ∧
      recover_and_decrypt 5 5 1 [] 0 = none) ∧
    (wiener_attack 2 15 = none ∧ try_factor 15 [(2, 1)] 2 = some (3, 5) ∧
      invmod (2 : Int) ((3 - 1) * (5 - 1)) = none ∧
      recover_and_decrypt 2 15 7 [(2, 1)] 2 = none) ∧
    recover_and_decrypt 5 5 1 [] 0 = recover_and_decrypt 2 15 7 [(2, 1)] 2 := by
  have hw5 : wiener_attack 5 5 = none := by decide
  have htf5 : try_factor 5 [] 0 = none := try_factor_prime5 0
  have hr5 : recover_and_decrypt 5 5 1 [] 0 = none :=
    recover_none_factorization_failed 5 5 1 [] 0 hw5 htf5
  have hw15 : wiener_attack 2 15 = none := by decide
  have hinv : invmod (2 : Int) ((3 - 1) * (5 - 1)) = none := by decide
  have hr15 : recover_and_decrypt 2 15 7 [(2, 1)] 2 = none :=
    recover_none_no_inverse 2 15 7 [(2, 1)] 2 3 5 hw15 try_factor_15 hinv
  exact ⟨⟨hw5, htf5, hr5⟩, ⟨hw15, try_factor_15, hinv, hr15⟩, by rw [hr5, hr15]⟩

theorem recover_failures_undifferentiated_witness :
    (wiener_attack 5 5 = none ∧ try_factor 5 [] 0 = none ∧
      recover_and_decrypt 5 5 1 [] 0 = none) ∧
    (wiener_attack 2 15 = none ∧ try_factor 15 [(2, 1)] 2 = some (3, 5) ∧
      invmod (2 : Int) ((3 - 1) * (5 - 1)) = none ∧
      recover_and_decrypt 2 15 7 [(2, 1)] 2 = none) := by
  have hw5 : wiener_attack 5 5 = none := by decide
  have htf5 : try_factor 5 [] 0 = none := try_factor_prime5 0
  have hw15 : wiener_attack 2 15 = none := by decide
  have hinv : invmod (2 : Int) ((3 - 1) * (5 - 1)) = none := by decide
  exact ⟨⟨hw5, htf5, (recover_failures_undifferentiated 5 5 1 [] 0 3 5).1 hw5 htf5⟩,
    ⟨hw15, try_factor_15, hinv,
      (recover_failures_undifferentiated 2 15 7 [(2, 1)] 2 3 5).2 hw15 try_factor_15 hinv⟩⟩

/-- C1 counterexample: with `P = 3`, `Q = 11`, `E = 49` (coprime to the
totient 20), `M = 2 < 33` and `C = 2^49 mod 33 = 17`, the Wiener attack
"succeeds" (returns `d = 1`, accepted because the discriminant of the
spurious totient candidate 48 is the perfect square 64), the factorization
orchestrator would also succeed on `N = 33`, yet the service returns the byte
rendering of 17 instead of the byte rendering of `M = 2`. -/
theorem recover_spurious_wiener_counterexample :
    Nat.Prime 3 ∧ Nat.Prime 11 ∧ (3 : Nat) ≠ 11 ∧
    Nat.Coprime 49 ((3 - 1) * (11 - 1)) ∧ (2 : Nat) < 3 * 11 ∧
    (2 : Nat) ^ 49 % (3 * 11) = 17 ∧
    wiener_attack 49 (3 * 11) = some 1 ∧
    try_factor (3 * 11) [(2, 1)] 2 = some (3, 11) ∧
    recover_and_decrypt 49 (3 * 11) (2 ^ 49 % (3 * 11)) [(2, 1)] 2 =
      some (long_to_bytes 17) ∧
    long_to_bytes 17 ≠ long_to_bytes 2 := by
  have hw : wiener_attack 49 (3 * 11) = some 1 := by decide
  refine ⟨by norm_num, by norm_num, by norm_num, by decide, by norm_num, by decide,
    hw, ?_, ?_, by decide⟩
  · rw [show (3 * 11 : Nat) = 33 by norm_num]
    exact try_factor_33
  · rw [recover_wiener_branch 49 (3 * 11) (2 ^ 49 % (3 * 11)) [(2, 1)] 2 1 hw,
      show powMod (3 * 11) (2 ^ 49 % (3 * 11)) 1 = 17 from by decide]

theorem recover_and_decrypt_correct_witness :
    Nat.Prime 239 ∧ Nat.Prime 379 ∧ (239 : Nat) ≠ 379 ∧
    Nat.Coprime 17993 ((239 - 1) * (379 - 1)) ∧ (2 : Nat) < 239 * 379 ∧
    recover_and_decrypt 17993 (239 * 379) (2 ^ 17993 % (239 * 379)) [] 0 =
      some (long_to_bytes 2) := by
  refine ⟨by norm_num, by norm_num, by norm_num, by decide, by norm_num, ?_⟩
  apply recover_and_decrypt_correct 239 379 17993 2 0 []
  · norm_num
  · norm_num
  · norm_num
  · decide
  · norm_num
  · intro d hd
    rw [show wiener_attack 17993 (239 * 379) = some 5 from by decide,
      Option.some.injEq] at hd
    subst hd
    decide
  · left
    decide

/-! ### Extended Euclid and modular inverse: claim artifacts -/

/-- C10 (amended): `invmod(a, m)` for `m > 1` returns some `x` with
`0 ≤ x < m` and `a·x ≡ 1 (mod m)` exactly when `gcd(a, m) = 1`, and `none`
otherwise; `egcd(a, b)` always satisfies the Bezout identity
`a·x + b·y = g`, and `g = gcd(a, b)` whenever `b > 0` or `a ≥ 0` (for
`a < 0`, `b = 0` it returns `g = a = −gcd(a, 0)`, which the counterexample
exhibits; `invmod` is unaffected since its recursion only reaches `b = 0`
with a nonnegative first argument). -/
theorem invmod_egcd_correct (a : Int) (b m : Nat) :
    (a * (egcd a b).2.1 + (b : Int) * (egcd a b).2.2 = (egcd a b).1) ∧
    (0 < b ∨ 0 ≤ a → (egcd a b).1 = Int.gcd a (b : Int)) ∧
    (1 < m →
      (Int.gcd a (m : Int) = 1 →
        ∃ x, invmod a m = some x ∧ 0 ≤ x ∧ x < m ∧ a * x % m = 1) ∧
      (Int.gcd a (m : Int) ≠ 1 → invmod a m = none)) :=
  ⟨(egcd_spec a b).1, (egcd_spec a b).2, fun hm => invmod_spec a m hm⟩

/-- C10 counterexample: `egcd(-2, 0)` returns the triple `(-2, 1, 0)`, whose
first component is not `gcd(-2, 0) = 2`, refuting the claim that `egcd(a, b)`
returns `g = gcd(a, b)` for every integer `a` and nonnegative `b`. -/
theorem egcd_negative_counterexample :
    egcd (-2) 0 = (-2, 1, 0) ∧ Int.gcd (-2) ((0 : Nat) : Int) = 2 ∧
    (egcd (-2) 0).1 ≠ ((Int.gcd (-2) ((0 : Nat) : Int) : Nat) : Int) :=
  ⟨rfl, by decide, by decide⟩

theorem invmod_egcd_correct_witness :
    ((0 : Nat) < 5 ∨ (0 : Int) ≤ 7) ∧ (egcd 7 5).1 = Int.gcd 7 ((5 : Nat) : Int) ∧
    (1 : Nat) < 10 ∧ Int.gcd (7 : Int) ((10 : Nat) : Int) = 1 ∧
    (∃ x, invmod 7 10 = some x ∧ 0 ≤ x ∧ x < ((10 : Nat) : Int) ∧
      (7 : Int) * x % ((10 : Nat) : Int) = 1) :=
  ⟨Or.inl (by norm_num), (invmod_egcd_correct 7 5 10).2.1 (Or.inl (by norm_num)),
    by norm_num, by decide, ((invmod_egcd_correct 7 5 10).2.2 (by norm_num)).1 (by decide)⟩

theorem try_factor_nontrivial_divisor_witness :
    (∃ p q, Nat.Prime p ∧ Nat.Prime q ∧ 15 = p * q) ∧
    try_factor 15 [(2, 1)] 2 = some (3, 5) ∧
    (3 * 5 = 15 ∧ (1 : Nat) < 3 ∧ (3 : Nat) < 15) :=
  ⟨⟨3, 5, by norm_num, by norm_num, by norm_num⟩, try_factor_15,
    try_factor_nontrivial_divisor 15 [(2, 1)] 2 3 5
      ⟨3, 5, by norm_num, by norm_num, by norm_num⟩ try_factor_15⟩

theorem methods_total_on_degenerate_witness :
    ((4 : Nat) % 2 = 0 ∧ pollards_rho 4 [] 0 = some 2 ∧ fermat_factor 4 0 = some 2) ∧
    (Nat.Prime 5 ∧ (5 : Nat) % 2 = 1 ∧ pollards_rho 5 [] 0 = none ∧
      fermat_factor 5 0 = none ∧ pollards_p_minus_1 5 0 = none) := by
  have h4 := (methods_total_on_degenerate 4 0 0 0 4 []).1 (by norm_num)
  have h5 := (methods_total_on_degenerate 5 0 0 0 5 []).2.1 (by norm_num) (by norm_num)
  exact ⟨⟨by norm_num, h4.1, h4.2⟩, ⟨by norm_num, by norm_num, h5.1, h5.2.1, h5.2.2⟩⟩
